import Mathlib

/-!
Shallow embedding of the go-lz4 codec (bkaradzic/go-lz4) and proofs about it.

The three source files are embedded faithfully:
* src/writer.go      : the one-shot block encoder (Encode, CompressBound)
* src/lz4/writer.go  : the streaming encoder (encode1 and its helpers)
* src/reader.go      : the streaming decoder (decode1 and its helpers)

Machine integers (Go uint32) are modelled as Nat with explicit wrapping
(% 2^32) wherever the Go arithmetic can wrap.  Go slices are modelled as
List Nat (byte values) or, for the in-place buffers, as total functions
Nat -> Nat together with a cursor; a Go runtime panic (slice index out of
range) is modelled as an explicit error value, never as a silent default.
-/

set_option maxRecDepth 20000

deriving instance DecidableEq for Except

/-- Function update for the Nat-indexed buffers. -/
def upd (f : Nat → Nat) (i v : Nat) : Nat → Nat := fun j => if j = i then v else f j

/-- First n cells of a buffer, as the byte list a Go slice b[0:n] denotes. -/
def extract (f : Nat → Nat) (n : Nat) : List Nat := (List.range n).map f

/-- 2^32, the modulus of Go uint32 arithmetic. -/
def M32 : Nat := 4294967296

/-- Wrapping uint32 addition. -/
def wadd (a b : Nat) : Nat := (a + b) % M32

/-- Wrapping uint32 subtraction (two's complement). -/
def wsub (a b : Nat) : Nat := (a + (M32 - b % M32)) % M32

/-- Wrapping uint32 multiplication. -/
def wmul (a b : Nat) : Nat := (a * b) % M32

-- Constants shared by src/writer.go, src/reader.go and src/lz4/writer.go.

def minMatch : Nat := 4
def hashLog : Nat := 17
def hashTableSize : Nat := 1 <<< hashLog
def hashShift : Nat := (minMatch * 8) - hashLog
def incompressible : Nat := 128
def uninitHash : Nat := 0x88888888
def MaxInputSize : Nat := 0x7E000000
def mlBits : Nat := 4
def mlMask : Nat := (1 <<< mlBits) - 1
def runBits : Nat := 8 - mlBits
def runMask : Nat := (1 <<< runBits) - 1
def bufferSize : Nat := 128 <<< 10
def flushSize : Nat := 1 <<< 16
def prefetchSize : Nat := 1024
def flushPos : Nat := bufferSize - prefetchSize

namespace Block

/-- State of the block encoder (struct encoder in src/writer.go). -/
structure Enc where
  src : List Nat
  dst : Nat → Nat
  dpos : Nat
  hashTable : Nat → Nat
  pos : Nat
  anchor : Nat

/-- e.readUint32 from src/writer.go: little-endian load of four source
bytes, 0 when pos is at or past the end.  (Go would panic when
len - 3 <= pos < len; that region is unreachable from the encoder loop,
which only reads at pos with pos + 4 < len or at a table entry.) -/
def readUint32 (src : List Nat) (pos : Nat) : Nat :=
  if src.length ≤ pos then 0
  else (src.getD (pos+3) 0) <<< 24 ||| (src.getD (pos+2) 0) <<< 16 |||
       (src.getD (pos+1) 0) <<< 8 ||| src.getD (pos+0) 0

/-- The base-255 length-continuation loop inside writeLiterals:
emit 255 while the remainder exceeds 254, then the final remainder byte.
The remainder shrinks by 255 per round, so the fuel ln+1 supplied at the
call site is never exhausted; fuel 0 is unreachable. -/
def ext255 : Nat → (Nat → Nat) → Nat → Nat → (Nat → Nat) × Nat
  | 0, dst, dpos, _ => (dst, dpos)
  | fuel+1, dst, dpos, ln =>
    if 254 < ln then ext255 fuel (upd dst dpos 255) (dpos + 1) (ln - 255)
    else (upd dst dpos (ln % 256), dpos + 1)

/-- The length-continuation loop in the match branch of Encode
(same emission as ext255; the Go source duplicates the loop). -/
def mlExt255 : Nat → (Nat → Nat) → Nat → Nat → (Nat → Nat) × Nat
  | 0, dst, dpos, _ => (dst, dpos)
  | fuel+1, dst, dpos, mlLen =>
    if 254 < mlLen then mlExt255 fuel (upd dst dpos 255) (dpos + 1) (mlLen - 255)
    else (upd dst dpos (mlLen % 256), dpos + 1)

/-- copy(e.dst[e.dpos:], bytes): sequential writes of a byte list. -/
def copyLits (dst : Nat → Nat) (dpos : Nat) : List Nat → (Nat → Nat)
  | [] => dst
  | b :: bs => copyLits (upd dst dpos b) (dpos + 1) bs

/-- e.writeLiterals from src/writer.go: token byte, optional literal-length
continuation, then the literal bytes src[pos:pos+length]. -/
def writeLiterals (dst : Nat → Nat) (dpos : Nat) (src : List Nat)
    (length mlLen pos : Nat) : (Nat → Nat) × Nat :=
  let code := if runMask - 1 < length then runMask else length % 256
  let token := if mlMask - 1 < mlLen then (code <<< mlBits) + mlMask
               else (code <<< mlBits) + mlLen % 256
  let d1 := upd dst dpos token
  let p1 := if code = runMask then ext255 (length - runMask + 1) d1 (dpos + 1) (length - runMask)
            else (d1, dpos + 1)
  (copyLits p1.1 p1.2 ((src.drop pos).take length), p1.2 + length)

/-- The match-extension loop in Encode: advance pos and ref while the
source bytes agree and pos is in range.  pos grows by one per round and
the loop stops at src.length, so the fuel src.length+1 supplied at the
call site is never exhausted; fuel 0 is unreachable. -/
def extend : Nat → List Nat → Nat → Nat → Nat × Nat
  | 0, _, pos, ref => (pos, ref)
  | fuel+1, src, pos, ref =>
    if pos < src.length ∧ src.getD pos 0 = src.getD ref 0 then
      extend fuel src (pos + 1) (wadd ref 1)
    else (pos, ref)

/-- Result of one iteration of the Encode loop: either the terminal
literal-only emission, or a continuation state. -/
inductive StepRes where
  | term (dst : Nat → Nat) (dpos : Nat)
  | cont (e : Enc) (step limit : Nat)

/-- The emitted bytes of a terminal step, none for a continuation. -/
def StepRes.outBytes : StepRes → Option (List Nat)
  | .term d dp => some (extract d dp)
  | .cont _ _ _ => none

/-- The state of a continuation step, none for a terminal one. -/
def StepRes.contState : StepRes → Option (Enc × Nat × Nat)
  | .term _ _ => none
  | .cont e s l => some (e, s, l)

/-- One iteration of the main loop of Encode (src/writer.go lines 120-182). -/
def encodeStep (e : Enc) (step limit : Nat) : StepRes :=
  if e.src.length ≤ e.pos + 4 then
    let p := writeLiterals e.dst e.dpos e.src (wsub e.src.length e.anchor) 0 e.anchor
    .term p.1 p.2
  else
    let sequence := readUint32 e.src e.pos
    let hash := wmul sequence 2654435761 >>> hashShift
    let ref := wadd (e.hashTable hash) uninitHash
    let ht := upd e.hashTable hash (wsub e.pos uninitHash)
    if wsub e.pos ref >>> 16 ≠ 0 ∨ readUint32 e.src ref ≠ sequence then
      let sl := if limit < wsub e.pos e.anchor
                then ((limit <<< 1) % M32, wadd step (1 + step >>> 2))
                else (limit, step)
      .cont { e with hashTable := ht, pos := wadd e.pos sl.2 } sl.2 sl.1
    else if 1 < step then
      .cont { e with hashTable := upd ht hash (wsub ref uninitHash), pos := wsub e.pos (step - 1) } 1 limit
    else
      let ln := wsub e.pos e.anchor
      let back := wsub e.pos ref
      let anchor0 := e.anchor
      let pos1 := wadd e.pos minMatch
      let ref1 := wadd ref minMatch
      let pr := extend (e.src.length + 1) e.src pos1 ref1
      let mlLen := wsub pr.1 pos1
      let p1 := writeLiterals e.dst e.dpos e.src ln mlLen anchor0
      let d2 := upd (upd p1.1 p1.2 (back % 256)) (p1.2 + 1) ((back >>> 8) % 256)
      let dp2 := p1.2 + 2
      let p3 := if mlMask - 1 < mlLen then mlExt255 (wsub mlLen mlMask + 1) d2 dp2 (wsub mlLen mlMask)
                else (d2, dp2)
      .cont { e with dst := p3.1, dpos := p3.2, hashTable := ht, pos := pr.1, anchor := pr.1 } step incompressible

/-- The Encode loop, driven by fuel.  The Go loop terminates on every
reachable state; fuel 2*len+4 is shown sufficient below. -/
def encodeLoop : Nat → Enc → Nat → Nat → Option ((Nat → Nat) × Nat)
  | 0, _, _, _ => none
  | fuel+1, e, step, limit =>
    match encodeStep e step limit with
    | .term d dp => some (d, dp)
    | .cont e2 s2 l2 => encodeLoop fuel e2 s2 l2

end Block

namespace St

/-- State of the streaming encoder (struct encoder in src/lz4/writer.go):
r is the remaining source bytes, w the bytes written so far. -/
structure Enc where
  r : List Nat
  w : List Nat
  hashTable : Nat → Nat
  buf : Nat → Nat
  pos : Nat
  anchor : Nat
  cached : Nat

/-- io.ByteReader.ReadByte on a pure byte list: value, rest, success flag.
On end of input Go returns byte 0 together with the error. -/
def readByte (r : List Nat) : Nat × List Nat × Bool :=
  match r with
  | [] => (0, [], false)
  | b :: t => (b, t, true)

/-- The read loop inside e.cache: read n bytes one at a time; a failed
read with pos == cached returns os.EOF, otherwise the (zero) byte is
still stored.  Storing at cached >= bufferSize is a Go index panic. -/
def cacheFor (e : Enc) : Nat → Option (Enc × Bool)
  | 0 => some (e, false)
  | n+1 =>
    let rb := readByte e.r
    if rb.2.2 = false ∧ e.pos = e.cached then some (e, true)
    else if bufferSize ≤ e.cached then none
    else cacheFor { e with r := rb.2.1, buf := upd e.buf e.cached rb.1, cached := e.cached + 1 } n

/-- e.cache from src/lz4/writer.go. -/
def cache (e : Enc) (ln : Nat) : Option (Enc × Bool) :=
  if e.cached < wadd e.pos ln then cacheFor e ln else some (e, false)

/-- e.readUint32 from src/lz4/writer.go: cache 4 bytes then load them
little-endian from the buffer at pos. -/
def readUint32 (e : Enc) : Option (Enc × Nat × Bool) :=
  match cache e 4 with
  | none => none
  | some (e2, true) => some (e2, 0, true)
  | some (e2, false) =>
    some (e2, (e2.buf (wadd e2.pos 3)) <<< 24 ||| (e2.buf (wadd e2.pos 2)) <<< 16 |||
              (e2.buf (wadd e2.pos 1)) <<< 8 ||| e2.buf (wadd e2.pos 0), false)

/-- e.readRef from src/lz4/writer.go. -/
def readRef (e : Enc) (ref : Nat) : Nat :=
  (e.buf (wadd ref 3)) <<< 24 ||| (e.buf (wadd ref 2)) <<< 16 |||
  (e.buf (wadd ref 1)) <<< 8 ||| e.buf (wadd ref 0)

/-- The base-255 continuation loop inside the streaming writeLiterals.
The remainder shrinks by 255 per round, so the fuel ln+1 supplied at the
call sites is never exhausted; fuel 0 is unreachable. -/
def ext255w : Nat → List Nat → Nat → List Nat
  | 0, w, _ => w
  | fuel+1, w, ln =>
    if 254 < ln then ext255w fuel (w ++ [255]) (ln - 255) else w ++ [ln % 256]

/-- e.writeLiterals from src/lz4/writer.go: token byte, optional
continuation, then length literal bytes taken from buf starting at anchor. -/
def writeLiterals (w : List Nat) (buf : Nat → Nat) (length mlLen anchor : Nat) : List Nat :=
  let code := if runMask - 1 < length then runMask else length % 256
  let w1 := w ++ [if mlMask - 1 < mlLen then (code <<< mlBits) + mlMask
                  else (code <<< mlBits) + mlLen % 256]
  let w2 := if code = runMask then ext255w (length - runMask + 1) w1 (length - runMask) else w1
  w2 ++ (List.range length).map (fun ii => buf (wadd anchor ii))

/-- e.writeUint16 from src/lz4/writer.go: little-endian. -/
def writeUint16 (w : List Nat) (v : Nat) : List Nat :=
  w ++ [v % 256, (v >>> 8) % 256]

/-- e.flush from src/lz4/writer.go: when cached > flushPos, slide
buf[anchor:cached] down to 0, remap the hash table, shift the cursors. -/
def flush (e : Enc) : Enc :=
  if flushPos < e.cached then
    let length := wsub e.cached e.anchor
    let buf2 := fun i => if i < length then e.buf (wadd e.anchor i) else e.buf i
    let ht2 := fun ii =>
      if e.hashTable ii ≠ uninitHash then
        (if e.hashTable ii < e.anchor then uninitHash else wsub (e.hashTable ii) e.anchor)
      else e.hashTable ii
    { e with buf := buf2, hashTable := ht2, pos := wsub e.pos e.anchor, cached := wsub e.cached e.anchor, anchor := 0 }
  else e

/-- e.finish(os.EOF) from src/lz4/writer.go: emit a literal-only token of
cached - pos bytes starting at anchor, then flush the writer. -/
def finishW (e : Enc) : List Nat :=
  writeLiterals e.w e.buf (wsub e.cached e.pos) 0 e.anchor

/-- The match-extension loop of encode1: cache one byte and advance while
the buffer bytes at pos and ref agree; the Bool records whether the loop
stopped on a read error (EOF). -/
def extendS : Nat → Enc → Nat → Option (Enc × Nat × Bool)
  | 0, _, _ => none
  | fuel+1, e, ref =>
    match cache e 1 with
    | none => none
    | some (e2, true) => some (e2, ref, true)
    | some (e2, false) =>
      if e2.buf e2.pos ≠ e2.buf ref then some (e2, ref, false)
      else extendS fuel { e2 with pos := wadd e2.pos 1 } (wadd ref 1)

/-- Result of one iteration of the encode1 loop. -/
inductive SStep where
  | ret (w : List Nat)
  | crash
  | fuelOut
  | cont (e : Enc) (step limit : Nat)

/-- The observable outcome of the streaming encoder: the written stream
on a normal return, none on a panic or on fuel exhaustion. -/
def SStep.out : SStep → Option (List Nat)
  | .ret w => some w
  | _ => none

/-- The state of a continuation iteration, none otherwise. -/
def SStep.contS : SStep → Option (Enc × Nat × Nat)
  | .cont e s l => some (e, s, l)
  | _ => none

/-- Fuel for the extension loop: pos grows by one per iteration and the
loop panics once the cache cursor reaches bufferSize, so this bound is
never exhausted on a run started from the initial state. -/
def extFuel : Nat := bufferSize + 8

/-- One iteration of the main loop of encode1 (src/lz4/writer.go 187-252). -/
def encode1Step (e0 : Enc) (step limit : Nat) : SStep :=
  let e := flush e0
  match readUint32 e with
  | none => .crash
  | some (e1, sv, eof) =>
    if eof then .ret (finishW e1)
    else
      let sequence := sv
      let hash := wmul sequence 2654435761 >>> hashShift
      let ref := e1.hashTable hash
      let e2 : Enc := { e1 with hashTable := upd e1.hashTable hash e1.pos }
      if wsub e2.pos ref >>> 16 ≠ 0 ∨ readRef e2 ref ≠ sequence then
        let sl := if limit < wsub e2.pos e2.anchor
                  then ((limit <<< 1) % M32, wadd step (1 + step >>> 2))
                  else (limit, step)
        .cont { e2 with pos := wadd e2.pos sl.2 } sl.2 sl.1
      else if 1 < step then
        .cont { e2 with hashTable := upd e2.hashTable hash ref, pos := wsub e2.pos (step - 1) } 1 limit
      else
        let ln := wsub e2.pos e2.anchor
        let back := wsub e2.pos ref
        let anchor0 := e2.anchor
        let e3 : Enc := { e2 with pos := wadd e2.pos minMatch, anchor := wadd e2.pos minMatch }
        let ref1 := wadd ref minMatch
        match extendS extFuel e3 ref1 with
        | none => .crash
        | some (e4, _, errFlag) =>
          let mlLen := wsub e4.pos e4.anchor
          let w1 := writeLiterals e4.w e4.buf ln mlLen anchor0
          let w2 := writeUint16 w1 back
          let w3 := if mlMask - 1 < mlLen then ext255w (wsub mlLen mlMask + 1) w2 (wsub mlLen mlMask) else w2
          let e5 : Enc := { e4 with w := w3, anchor := e4.pos }
          if errFlag then .cont { e5 with w := finishW e5 } step 128
          else .cont e5 step 128

/-- The encode1 loop, driven by fuel. -/
def encode1Loop : Nat → Enc → Nat → Nat → SStep
  | 0, _, _, _ => .fuelOut
  | fuel+1, e, step, limit =>
    match encode1Step e step limit with
    | .cont e2 s2 l2 => encode1Loop fuel e2 s2 l2
    | r => r

/-- encode1 from src/lz4/writer.go, on a pure byte-list source: the hash
table starts filled with uninitHash, the buffer zeroed (Go make). -/
def encode1 (fuel : Nat) (src : List Nat) : SStep :=
  encode1Loop fuel ⟨src, [], fun _ => uninitHash, fun _ => 0, 0, 0, 0⟩ 1 128

end St

/-- CompressBound from src/writer.go. -/
def CompressBound (isize : Nat) : Nat :=
  if MaxInputSize < isize then 0 else isize + isize / 255 + 16

/-- The distinct error values Encode can produce in the embedding:
tooLarge is ErrTooLarge; spin marks fuel exhaustion of the embedded loop
(unreachable, as proved below). -/
inductive EncodeErr where
  | tooLarge
  | spin
deriving DecidableEq

/-- Encode from src/writer.go, running on the caller's dst when it is
large enough and on a fresh CompressBound-sized buffer otherwise. -/
def EncodeRun (dstL src : List Nat) : Option ((Nat → Nat) × Nat) :=
  Block.encodeLoop (2 * src.length + 4)
    ⟨src, fun i => dstL.getD i 0, 0, fun _ => 0, 0, 0⟩ 1 incompressible

def Encode (dst src : List Nat) : Except EncodeErr (List Nat) :=
  if MaxInputSize ≤ src.length then .error .tooLarge
  else
    let n := CompressBound src.length
    let dstL := if dst.length < n then List.replicate n 0 else dst
    match EncodeRun dstL src with
    | some p => .ok (extract p.1 p.2)
    | none => .error .spin

namespace D

/-- State of the streaming decoder (struct decoder in src/reader.go):
r is the remaining compressed bytes, w the bytes written to the sink. -/
structure Dec where
  r : List Nat
  w : List Nat
  buf : Nat → Nat
  pos : Nat
  ref : Nat

/-- d.getLen from src/reader.go: sum 255 per 255-byte, stop at the first
byte below 255; none on end of input. -/
def getLen : List Nat → Option (Nat × List Nat)
  | [] => none
  | b :: t =>
    if b = 255 then
      match getLen t with
      | none => none
      | some p => some (wadd 255 p.1, p.2)
    else some (b, t)

/-- d.readUint16 from src/reader.go: two bytes, little-endian; none on
end of input. -/
def readUint16 (d : Dec) : Option (Nat × Dec) :=
  match d.r with
  | b1 :: b2 :: t => some ((b2 <<< 8) ||| b1, { d with r := t })
  | _ => none

/-- d.finish(io.EOF) from src/reader.go: write buf[0:pos] to the sink and
flush it; the session ends successfully. -/
def finishEOF (d : Dec) : List Nat := d.w ++ extract d.buf d.pos

/-- d.flush from src/reader.go: when pos+length would pass bufferSize,
write buf[0 : ref-flushSize] out and slide buf[ref-flushSize : pos] down
so that ref becomes flushSize.  Each slice whose bounds Go would reject
(panic) is modelled as none. -/
def flush (d : Dec) (length : Nat) : Option Dec :=
  if bufferSize < wadd d.pos length then
    if bufferSize < wsub d.ref flushSize then none
    else if bufferSize < flushSize + wsub d.pos d.ref ∨ d.pos < wsub d.ref flushSize ∨ bufferSize < d.pos then none
    else
      some { d with w := d.w ++ extract d.buf (wsub d.ref flushSize), buf := fun i => if i < flushSize + wsub d.pos d.ref then d.buf (wsub d.ref flushSize + i) else d.buf i, pos := wadd flushSize (wsub d.pos d.ref), ref := flushSize }
  else some d

/-- The copy loop of d.cp: length byte moves buf[pos+ii] := buf[ref+ii],
done sequentially (overlap-aware); an index at or past bufferSize is a Go
panic, modelled as none. -/
def cpLoop (buf : Nat → Nat) (pos ref : Nat) : Nat → Option (Nat → Nat)
  | 0 => some buf
  | n+1 =>
    if bufferSize ≤ pos ∨ bufferSize ≤ ref then none
    else cpLoop (upd buf pos (buf ref)) (wadd pos 1) (wadd ref 1) n

/-- d.cp from src/reader.go: flush, copy length bytes from ref to pos,
then advance pos by length and ref by length - decr. -/
def cp (d : Dec) (length decrv : Nat) : Except Unit Dec :=
  match flush d length with
  | none => .error ()
  | some d2 =>
    match cpLoop d2.buf d2.pos d2.ref length with
    | none => .error ()
    | some buf2 => .ok { d2 with buf := buf2, pos := wadd d2.pos length, ref := wadd d2.ref (wsub length decrv) }

/-- The read loop of d.consume: move length input bytes into the buffer.
On end of input Go calls d.finish(err), whose EOF branch writes
buf[0:pos] and returns nil, so consume reports success either way; a
buffer index at bufferSize is a Go panic (none via the error). -/
def consumeLoop (d : Dec) : Nat → Except Unit Dec
  | 0 => .ok d
  | n+1 =>
    match d.r with
    | [] => .ok { d with w := d.w ++ extract d.buf d.pos }
    | b :: t =>
      if bufferSize ≤ d.pos then .error ()
      else consumeLoop { d with r := t, buf := upd d.buf d.pos b, pos := d.pos + 1 } n

/-- d.consume from src/reader.go. -/
def consume (d : Dec) (length : Nat) : Except Unit Dec :=
  match flush d length with
  | none => .error ()
  | some d2 => consumeLoop d2 length

/-- The shared pattern of decode1 for both nibble fields: extend the
4-bit length by getLen when it equals the mask; none means end of input
was hit inside the extension read. -/
def extLength (d : Dec) (v mask : Nat) : Option (Nat × Dec) :=
  if v = mask then
    match getLen d.r with
    | none => none
    | some p => some (wadd v p.1, { d with r := p.2 })
  else some (v, d)

/-- The decr table of decode1. -/
def decrTable : List Nat := [0, 3, 2, 3]

end D

namespace D

/-- The main loop of decode1 (src/reader.go lines 136-179): one token per
iteration; end of input at the token byte, inside a length continuation
or at the offset field goes through finish; slice panics are errors.
Every iteration consumes at least the token byte from the source, so the
fuel r.length+1 supplied by decode1 is never exhausted (none is the
unreachable fuel-out marker, distinct from both outcomes of the code). -/
def decode1Loop : Nat → Dec → Option (Except Unit (List Nat))
  | 0, _ => none
  | fuel+1, d =>
    match d.r with
    | [] => some (.ok (finishEOF d))
    | code :: rs =>
      match extLength { d with r := rs } (code >>> mlBits) runMask with
      | none => some (.ok (finishEOF { d with r := rs }))
      | some (length, d2) =>
        match consume d2 length with
        | .error _ => some (.error ())
        | .ok d3 =>
          match readUint16 d3 with
          | none => some (.ok (finishEOF d3))
          | some (back, d4) =>
            match extLength { d4 with ref := wsub d4.pos back } (code &&& mlMask) mlMask with
            | none => some (.ok (finishEOF { d4 with ref := wsub d4.pos back }))
            | some (length2, d6) =>
              match (if wsub d6.pos d6.ref < 4 then cp d6 4 (decrTable.getD (wsub d6.pos d6.ref) 0) else .ok d6) with
              | .error _ => some (.error ())
              | .ok d7 =>
                match cp d7 (if wsub d6.pos d6.ref < 4 then length2 else wadd length2 4) 0 with
                | .error _ => some (.error ())
                | .ok d8 => decode1Loop fuel d8

/-- decode1 from src/reader.go, on a pure byte-list source, with the
bufio writer modelled as the accumulated output list. -/
def decode1 (r : List Nat) : Option (Except Unit (List Nat)) :=
  decode1Loop (r.length + 1) ⟨r, [], fun _ => 0, 0, 0⟩

end D

/-- Sequential byte-by-byte copy of n bytes from srcp to dstp: each byte
is moved one at a time, so an overlapping region replays bytes already
written.  Used to state what literal replication from a short offset
produces. -/
def seqCopy (buf : Nat → Nat) (dstp srcp : Nat) : Nat → (Nat → Nat)
  | 0 => buf
  | n+1 => seqCopy (upd buf dstp (buf srcp)) (dstp + 1) (srcp + 1) n

/-- Modelled from the spec (section 4.4, short-offset correction): the
bytes that literal byte-by-byte replication from off bytes behind the
write cursor would produce. -/
def literalReplication (buf : Nat → Nat) (pos off n : Nat) : Nat → Nat :=
  seqCopy buf pos (pos - off) n

/-- The token byte writeLiterals emits: literal-run code in the high
nibble, match-length code in the low nibble (src/writer.go lines 70-87). -/
def Block.token (length mlLen : Nat) : Nat :=
  ((if runMask - 1 < length then runMask else length % 256) <<< mlBits) +
    (if mlMask - 1 < mlLen then mlMask else mlLen % 256)

/-- Loop invariant of the Encode main loop: step is positive, the anchor
trails the cursor by at least step-1, the anchor is inside the source,
step and limit respect the adaptive-growth coupling, and the output
cursor is within the proportional budget anchor + anchor/255. -/
def Block.Inv (e : Block.Enc) (step limit : Nat) : Prop :=
  1 ≤ step ∧ e.anchor + step ≤ e.pos + 1 ∧ e.anchor ≤ e.src.length ∧
  4 * step ≤ limit ∧ 128 ≤ limit ∧ limit < M32 ∧
  e.dpos ≤ e.anchor + e.anchor / 255

/-- Termination measure of the Encode main loop: it strictly decreases on
every continuation step (rejections advance pos by step, the rewind
spends the step > 1 flag, matches advance pos by at least 4). -/
def Block.meas (e : Block.Enc) (step : Nat) : Nat :=
  2 * ((e.src.length + step) - e.pos) + (if 1 < step then 1 else 0)

/-- C1.  The claim states that decoding the encoder output reproduces the
input for every byte sequence, for the block path and the streaming path
alike.  The code violates it: the streaming encoder encode1 zero-pads its
window on end of input (cache stores the zero byte a failed ReadByte
returns whenever pos is not equal to cached), encodes the phantom zeros,
and its terminal call emits cached-pos literals instead of the pending
run, so already the three-byte input [1,2,3] decodes to eight bytes
[1,2,3,0,0,0,0,0].  This theorem evaluates the embedded code at that
failing input. -/
theorem C1_streaming_roundtrip_fails :
    (St.encode1 50 [1, 2, 3]).out = some [64, 1, 2, 3, 0, 1, 0, 0, 0] ∧
    D.decode1 [64, 1, 2, 3, 0, 1, 0, 0, 0] = some (.ok [1, 2, 3, 0, 0, 0, 0, 0]) ∧
    some (Except.ok [1, 2, 3, 0, 0, 0, 0, 0]) ≠
      (some (Except.ok [1, 2, 3]) : Option (Except Unit (List Nat))) := by
  refine ⟨by decide, by decide, by decide⟩

/-- C8.  A token whose 16-bit offset exceeds the bytes decoded so far
makes ref = pos - back wrap; the copy loop then indexes the 128 KiB
buffer at a wrapped position at or past bufferSize, which in Go is an
index-out-of-range panic, not a signalled decode error.  The stream
[0x00, 0x01, 0x00] (empty literal run, offset 1 at position 0) crashes
the decoder: the embedding returns the panic marker, not a success and
not an error value the code ever constructs for corrupt input. -/
theorem C8_underflow_offset_panics :
    D.decode1 [0, 1, 0] = some (.error ()) ∧
    (∀ out : List Nat, D.decode1 [0, 1, 0] ≠ some (.ok out)) := by
  refine ⟨by decide, ?_⟩
  intro out h
  rw [show D.decode1 [0, 1, 0] = some (.error ()) from by decide] at h
  simp at h

/-- C3 counterexample.  The stream [0x11] is cut right after a
non-terminal token byte (literal nibble 1, match nibble 1), before its
literal bytes and offset field; the claim says decode1 must surface a
decode error, but the code reaches finish(io.EOF) inside consume and
terminates successfully with empty output. -/
theorem C3_truncated_token_accepted : D.decode1 [17] = some (.ok []) := by decide

/-- C4 counterexample.  On the four-byte input [1,2,3,4] the very first
loop iteration has exactly 4 bytes unexamined (pos = 0, len = 4), which
is not fewer than 4, yet the encoder takes the terminal branch
(int(pos)+4 >= len) and emits the final literal-only token 0x40 covering
all four bytes; the claim's "precisely when fewer than 4 bytes remain"
is therefore wrong at remaining = 4. -/
theorem C4_terminal_branch_at_four_remaining :
    (Block.encodeStep ⟨[1, 2, 3, 4], fun _ => 0, 0, fun _ => 0, 0, 0⟩ 1 incompressible).outBytes
      = some [64, 1, 2, 3, 4] ∧ ¬([1, 2, 3, 4].length - 0 < 4) := by
  refine ⟨by decide, by decide⟩

/-- C5 counterexample.  The claim quantifies over every input whose
encoding contains a token with offset 1, 2 or 3 and asserts such inputs
round-trip.  The streaming encoding of [5,6,7] contains an offset-1
token (offset field bytes 1, 0 at stream positions 5 and 6), yet the
stream decodes to [5,6,7,0,0,0,0,0], not [5,6,7]: the phantom zeros the
encoder padded were encoded alongside the input, so the input does not
round-trip even though the short-offset copy path itself is exact. -/
theorem C5_short_offset_input_no_roundtrip :
    (St.encode1 50 [5, 6, 7]).out = some [64, 5, 6, 7, 0, 1, 0, 0, 0] ∧
    [64, 5, 6, 7, 0, 1, 0, 0, 0].getD 5 0 = 1 ∧
    D.decode1 [64, 5, 6, 7, 0, 1, 0, 0, 0] = some (.ok [5, 6, 7, 0, 0, 0, 0, 0]) ∧
    some (Except.ok [5, 6, 7, 0, 0, 0, 0, 0]) ≠
      (some (Except.ok [5, 6, 7]) : Option (Except Unit (List Nat))) := by
  refine ⟨by decide, by decide, by decide, by decide⟩

-- General lemmas about the wrapped arithmetic and the buffer helpers.

theorem wadd_eq_of_lt (a b : Nat) (h : a + b < M32) : wadd a b = a + b :=
  Nat.mod_eq_of_lt h

theorem wsub_eq_of_le (a b : Nat) (hba : b ≤ a) (ha : a < M32) : wsub a b = a - b := by
  have hb : b % M32 = b := Nat.mod_eq_of_lt (lt_of_le_of_lt hba ha)
  unfold wsub
  rw [hb]
  have hbM : b ≤ M32 := le_of_lt (lt_of_le_of_lt hba ha)
  have h1 : a + (M32 - b) = M32 + (a - b) := by omega
  rw [h1, Nat.add_mod_left]
  exact Nat.mod_eq_of_lt (by omega)

theorem upd_same (f : Nat → Nat) (i v : Nat) : upd f i v i = v := by simp [upd]

theorem upd_other (f : Nat → Nat) (i v j : Nat) (h : j ≠ i) : upd f i v j = f j := by
  simp [upd, h]

theorem extract_zero (f : Nat → Nat) : extract f 0 = [] := rfl

theorem extract_succ (f : Nat → Nat) (n : Nat) : extract f (n + 1) = extract f n ++ [f n] := by
  simp [extract, List.range_succ]

theorem extract_congr (f g : Nat → Nat) (n : Nat) (h : ∀ i, i < n → f i = g i) :
    extract f n = extract g n := by
  unfold extract
  exact List.map_congr_left (by intro i hi; exact h i (List.mem_range.mp hi))

theorem extract_upd_snoc (f : Nat → Nat) (n v : Nat) :
    extract (upd f n v) (n + 1) = extract f n ++ [v] := by
  rw [extract_succ, upd_same]
  congr 1
  exact extract_congr _ _ n (fun i hi => upd_other f n v i (by omega))

/-- C9.  Encode rejects any source at or above MaxInputSize with the
distinct ErrTooLarge value before running the loop, and CompressBound
returns 0 above MaxInputSize and the positive bound n + n/255 + 16 below
it. -/
theorem C9_size_limit_checks :
    (∀ dst src : List Nat, MaxInputSize ≤ src.length → Encode dst src = .error .tooLarge) ∧
    (∀ n : Nat, MaxInputSize < n → CompressBound n = 0) ∧
    (∀ n : Nat, n < MaxInputSize → CompressBound n = n + n / 255 + 16 ∧ 0 < CompressBound n) := by
  refine ⟨?_, ?_, ?_⟩
  · intro dst src h
    simp [Encode, h]
  · intro n h
    simp [CompressBound, h]
  · intro n h
    have h2 : ¬ MaxInputSize < n := by omega
    constructor
    · simp [CompressBound, h2]
    · simp [CompressBound, h2]

/-- Witness for C9 at concrete inputs. -/
theorem C9_size_limit_checks_witness :
    Encode [] (List.replicate MaxInputSize 0) = .error .tooLarge ∧
    CompressBound (MaxInputSize + 1) = 0 ∧
    CompressBound 1000 = 1000 + 1000 / 255 + 16 ∧ 0 < CompressBound 1000 := by
  refine ⟨?_, ?_, ?_, ?_⟩
  · exact C9_size_limit_checks.1 [] (List.replicate MaxInputSize 0) (by simp)
  · exact C9_size_limit_checks.2.1 (MaxInputSize + 1) (by omega)
  · exact (C9_size_limit_checks.2.2 1000 (by norm_num [MaxInputSize])).1
  · exact (C9_size_limit_checks.2.2 1000 (by norm_num [MaxInputSize])).2

/-- C7.  A hash-table slot never written in the current session is never
accepted as a match candidate.  Block encoder: the table is
zero-initialized, lookups add the bias uninitHash, so an unset slot
reads back as 0x88888888; for every loop iteration (which has
pos < MaxInputSize, since the loop body only runs with pos + 4 < len and
len < MaxInputSize) the offset range check (pos-ref)>>16 != 0 rejects it
and the step only advances the scan cursor: no token is emitted and no
match is consumed (dpos and anchor are unchanged).  Streaming encoder:
the table is filled with the sentinel 0x88888888 and positions stay
below bufferSize < 0x88888888, so the same range check rejects an unset
slot and the iteration writes nothing (w and anchor unchanged). -/
theorem C7_unset_slot_rejected :
    (∀ (e : Block.Enc) (s l : Nat),
      ¬(e.src.length ≤ e.pos + 4) →
      e.pos < MaxInputSize →
      e.hashTable (wmul (Block.readUint32 e.src e.pos) 2654435761 >>> hashShift) = 0 →
      (Block.encodeStep e s l).contState.map (fun x => (x.1.dpos, x.1.anchor)) = some (e.dpos, e.anchor)) ∧
    (∀ (e : St.Enc) (s l : Nat),
      e.cached ≤ flushPos →
      wadd e.pos 4 ≤ e.cached →
      e.pos < uninitHash →
      e.hashTable (wmul (St.readRef e e.pos) 2654435761 >>> hashShift) = uninitHash →
      (St.encode1Step e s l).contS.map (fun x => (x.1.w, x.1.anchor)) = some (e.w, e.anchor)) := by
  constructor
  · intro e s l hterm hpos hslot
    simp only [Block.encodeStep, if_neg hterm]
    rw [hslot]
    have e1 : wadd 0 uninitHash = uninitHash := by norm_num [wadd, uninitHash, M32]
    rw [e1]
    have e2 : wsub e.pos uninitHash = e.pos + 2004318072 := by
      unfold wsub uninitHash M32
      norm_num
      unfold MaxInputSize at hpos
      omega
    rw [if_pos]
    · simp [Block.StepRes.contState]
    · left
      rw [e2, Nat.shiftRight_eq_div_pow]
      have h3 : (e.pos + 2004318072) / 2 ^ 16 ≥ 2004318072 / 2 ^ 16 := Nat.div_le_div_right (by omega)
      norm_num at h3 ⊢
      omega
  · intro e s l hfl hcache hpos hslot
    have hflush : St.flush e = e := by
      unfold St.flush
      rw [if_neg (by omega)]
    have hc : St.cache e 4 = some (e, false) := by
      unfold St.cache
      rw [if_neg (by omega)]
    simp only [St.encode1Step, hflush, St.readUint32, hc, Bool.false_eq_true, if_false]
    rw [show ((e.buf (wadd e.pos 3)) <<< 24 ||| (e.buf (wadd e.pos 2)) <<< 16 |||
              (e.buf (wadd e.pos 1)) <<< 8 ||| e.buf (wadd e.pos 0)) = St.readRef e e.pos from rfl]
    rw [hslot]
    have e2 : wsub e.pos uninitHash = e.pos + 2004318072 := by
      unfold wsub uninitHash M32
      norm_num
      unfold uninitHash at hpos
      omega
    rw [if_pos]
    · simp [St.SStep.contS]
    · left
      rw [e2, Nat.shiftRight_eq_div_pow]
      have h3 : (e.pos + 2004318072) / 2 ^ 16 ≥ 2004318072 / 2 ^ 16 := Nat.div_le_div_right (by omega)
      norm_num at h3 ⊢
      omega

/-- Witness for C7 at concrete states: a 10-byte source at position 0
with a zeroed block table, and a streaming state with a sentinel table. -/
theorem C7_unset_slot_rejected_witness :
    (Block.encodeStep ⟨[9, 9, 9, 9, 9, 9, 9, 9, 9, 9], fun _ => 0, 0, fun _ => 0, 0, 0⟩ 1 128).contState.map
      (fun x => (x.1.dpos, x.1.anchor)) = some (0, 0) ∧
    (St.encode1Step ⟨[], [], fun _ => uninitHash, fun _ => 0, 0, 0, 8⟩ 1 128).contS.map
      (fun x => (x.1.w, x.1.anchor)) = some ([], 0) := by
  constructor
  · exact C7_unset_slot_rejected.1 ⟨[9, 9, 9, 9, 9, 9, 9, 9, 9, 9], fun _ => 0, 0, fun _ => 0, 0, 0⟩ 1 128
      (by decide) (by decide) rfl
  · exact C7_unset_slot_rejected.2 ⟨[], [], fun _ => uninitHash, fun _ => 0, 0, 0, 8⟩ 1 128
      (by decide) (by decide) (by decide) rfl

/-- C2 (amended).  When the decoder flush fires in a state whose
reference cursor is at least flushSize (and ref <= pos <= bufferSize, as
in every state the decoder loop reaches while within bounds), it behaves
exactly as the claim describes: it writes exactly buf[0, ref-65536) to
the sink, slides the tail buf[ref-65536, pos) down so that ref becomes
65536, and the whole tail -- in particular the 65536 bytes of lookback
before the new ref -- is preserved, as the resulting buffer equation
shows.  The claim's universal guarantee ref >= 65536 on every
encoder-produced stream is refuted separately by the counterexample. -/
theorem C2_flush_slides_window :
    ∀ (d : D.Dec) (length : Nat),
      flushSize ≤ d.ref → d.ref ≤ d.pos → d.pos ≤ bufferSize →
      bufferSize < wadd d.pos length →
      D.flush d length = some { d with
        w := d.w ++ extract d.buf (d.ref - flushSize),
        buf := fun i => if i < flushSize + (d.pos - d.ref) then d.buf (d.ref - flushSize + i) else d.buf i,
        pos := flushSize + (d.pos - d.ref),
        ref := flushSize } := by
  intro d length h1 h2 h3 hfire
  have c1 : flushSize = 65536 := by decide
  have c2 : bufferSize = 131072 := by decide
  have hM : bufferSize < M32 := by decide
  have e1 : wsub d.ref flushSize = d.ref - flushSize := wsub_eq_of_le _ _ h1 (by omega)
  have e2 : wsub d.pos d.ref = d.pos - d.ref := wsub_eq_of_le _ _ h2 (by omega)
  have e3 : wadd flushSize (d.pos - d.ref) = flushSize + (d.pos - d.ref) :=
    wadd_eq_of_lt _ _ (by unfold M32; omega)
  unfold D.flush
  rw [if_pos hfire, e1, e2, e3]
  rw [if_neg (by omega)]
  rw [if_neg (by simp only [not_or]; exact ⟨by omega, by omega, by omega⟩)]

/-- Witness for C2 (amended) at a concrete full-buffer state. -/
theorem C2_flush_slides_window_witness :
    (D.flush ⟨[], [], fun _ => 0, 131072, 65536⟩ 1).map D.Dec.ref = some flushSize ∧
    (D.flush ⟨[], [], fun _ => 0, 131072, 65536⟩ 1).map D.Dec.pos = some 131072 ∧
    (D.flush ⟨[], [], fun _ => 0, 131072, 65536⟩ 1).map D.Dec.w = some [] := by
  have h := C2_flush_slides_window ⟨[], [], fun _ => 0, 131072, 65536⟩ 1
    (by decide) (by decide) (by decide) (by decide)
  rw [h]
  refine ⟨rfl, ?_, ?_⟩
  · show some (flushSize + (131072 - 65536)) = some 131072
    decide
  · show some ([] ++ extract (fun _ => 0) (65536 - flushSize)) = some []
    decide

theorem flush_noop (d : D.Dec) (length : Nat) (h : wadd d.pos length ≤ bufferSize) :
    D.flush d length = some d := by
  unfold D.flush
  rw [if_neg (by omega)]

theorem consumeLoop_short : ∀ (bs : List Nat) (n : Nat) (d : D.Dec), d.r = bs → bs.length < n →
    d.pos + bs.length ≤ bufferSize →
    ∃ buf2 : Nat → Nat,
      D.consumeLoop d n = .ok ⟨[], d.w ++ extract buf2 (d.pos + bs.length), buf2, d.pos + bs.length, d.ref⟩ ∧
      extract buf2 (d.pos + bs.length) = extract d.buf d.pos ++ bs := by
  intro bs
  induction bs with
  | nil =>
    intro n d hr hn _
    obtain ⟨r0, w0, buf0, pos0, ref0⟩ := d
    simp only at hr
    subst hr
    obtain ⟨m, rfl⟩ : ∃ m, n = m + 1 := ⟨n - 1, by omega⟩
    refine ⟨buf0, ?_, by simp⟩
    simp [D.consumeLoop]
  | cons b bs ih =>
    intro n d hr hn hpos
    obtain ⟨r0, w0, buf0, pos0, ref0⟩ := d
    simp only at hr hpos
    subst hr
    obtain ⟨m, rfl⟩ : ∃ m, n = m + 1 := ⟨n - 1, by omega⟩
    have hlt : ¬ bufferSize ≤ pos0 := by simp at hpos; omega
    have step : D.consumeLoop ⟨b :: bs, w0, buf0, pos0, ref0⟩ (m + 1)
        = D.consumeLoop ⟨bs, w0, upd buf0 pos0 b, pos0 + 1, ref0⟩ m := by
      simp only [D.consumeLoop]
      rw [if_neg hlt]
    obtain ⟨buf2, h1, h2⟩ := ih m ⟨bs, w0, upd buf0 pos0 b, pos0 + 1, ref0⟩ rfl
      (by simp at hn ⊢; omega) (by simp at hpos ⊢; omega)
    simp only at h1 h2
    refine ⟨buf2, ?_, ?_⟩
    · rw [step, h1]
      have : pos0 + 1 + bs.length = pos0 + (b :: bs).length := by simp; omega
      rw [this]
    · have hl : pos0 + 1 + bs.length = pos0 + (b :: bs).length := by simp; omega
      rw [hl] at h2
      rw [h2, extract_upd_snoc]
      simp

theorem consumeLoop_exact : ∀ (bs : List Nat) (d : D.Dec), d.r = bs →
    d.pos + bs.length ≤ bufferSize →
    ∃ buf2 : Nat → Nat,
      D.consumeLoop d bs.length = .ok ⟨[], d.w, buf2, d.pos + bs.length, d.ref⟩ ∧
      extract buf2 (d.pos + bs.length) = extract d.buf d.pos ++ bs := by
  intro bs
  induction bs with
  | nil =>
    intro d hr _
    obtain ⟨r0, w0, buf0, pos0, ref0⟩ := d
    simp only at hr
    subst hr
    exact ⟨buf0, by simp [D.consumeLoop], by simp⟩
  | cons b bs ih =>
    intro d hr hpos
    obtain ⟨r0, w0, buf0, pos0, ref0⟩ := d
    simp only at hr hpos
    subst hr
    have hlt : ¬ bufferSize ≤ pos0 := by simp at hpos; omega
    have step : D.consumeLoop ⟨b :: bs, w0, buf0, pos0, ref0⟩ (b :: bs).length
        = D.consumeLoop ⟨bs, w0, upd buf0 pos0 b, pos0 + 1, ref0⟩ bs.length := by
      simp only [D.consumeLoop, List.length_cons]
      rw [if_neg hlt]
    obtain ⟨buf2, h1, h2⟩ := ih ⟨bs, w0, upd buf0 pos0 b, pos0 + 1, ref0⟩ rfl
      (by simp at hpos ⊢; omega)
    simp only at h1 h2
    refine ⟨buf2, ?_, ?_⟩
    · rw [step, h1]
      have : pos0 + 1 + bs.length = pos0 + (b :: bs).length := by simp; omega
      rw [this]
    · have hl : pos0 + 1 + bs.length = pos0 + (b :: bs).length := by simp; omega
      rw [hl] at h2
      rw [h2, extract_upd_snoc]
      simp

/-- C3 (amended).  The decoder accepts end of input at every read point
as normal termination and never reports truncation: for a stream that is
cut inside the literal run of its first token (fewer bytes than the
literal nibble announces), consume reaches finish(io.EOF), which flushes
the window and returns nil, and the loop then hits end of input again at
the offset field and flushes once more -- the decoded bytes are emitted
twice; for a stream cut exactly before the offset field the bytes are
emitted once.  In neither case is a decode error produced. -/
theorem C3_eof_mid_token_terminates :
    ∀ (t : Nat) (bs : List Nat), t < 256 → t >>> mlBits < runMask → bs.length ≤ t >>> mlBits →
      D.decode1 (t :: bs) = some (.ok (if bs.length < t >>> mlBits then bs ++ bs else bs)) := by
  intro t bs ht hlit hlen
  have hrm : runMask = 15 := by decide
  have hbuf : bufferSize = 131072 := by decide
  have hM : M32 = 4294967296 := by decide
  have hne : ¬ (t >>> mlBits = runMask) := by omega
  have hlt15 : t >>> mlBits < 15 := by omega
  have hwadd : wadd 0 (t >>> mlBits) = t >>> mlBits := by
    rw [wadd_eq_of_lt]
    · omega
    · omega
  rcases Nat.lt_or_ge bs.length (t >>> mlBits) with hcase | hcase
  · obtain ⟨buf2, hcl, hex⟩ := consumeLoop_short bs (t >>> mlBits) ⟨bs, [], fun _ => 0, 0, 0⟩ rfl
      hcase (by simp only; omega)
    have hconsume : D.consume ⟨bs, [], fun _ => 0, 0, 0⟩ (t >>> mlBits)
        = .ok ⟨[], [] ++ extract buf2 (0 + bs.length), buf2, 0 + bs.length, 0⟩ := by
      unfold D.consume
      rw [flush_noop _ _ (by simp only; omega)]
      exact hcl
    unfold D.decode1
    rw [show (t :: bs).length + 1 = bs.length + 1 + 1 from by simp]
    simp only [D.decode1Loop]
    simp only [D.extLength, if_neg hne]
    rw [hconsume]
    simp only [D.readUint16, D.finishEOF]
    rw [if_pos hcase]
    rw [hex]
    simp [extract_zero]
  · have heq : bs.length = t >>> mlBits := le_antisymm hlen hcase
    obtain ⟨buf2, hcl, hex⟩ := consumeLoop_exact bs ⟨bs, [], fun _ => 0, 0, 0⟩ rfl
      (by simp only; omega)
    have hconsume : D.consume ⟨bs, [], fun _ => 0, 0, 0⟩ (t >>> mlBits)
        = .ok ⟨[], [], buf2, 0 + bs.length, 0⟩ := by
      unfold D.consume
      rw [flush_noop _ _ (by simp only; omega)]
      rw [← heq]
      exact hcl
    unfold D.decode1
    rw [show (t :: bs).length + 1 = bs.length + 1 + 1 from by simp]
    simp only [D.decode1Loop]
    simp only [D.extLength, if_neg hne]
    rw [hconsume]
    simp only [D.readUint16, D.finishEOF]
    rw [if_neg (by omega)]
    rw [hex]
    simp [extract_zero]

/-- Witness for C3 (amended): a token byte 0x20 announcing two literals
followed by a single literal byte decodes successfully to that byte
twice, and a stream cut exactly before the offset field decodes to its
literal once. -/
theorem C3_eof_mid_token_terminates_witness :
    D.decode1 [32, 7] = some (.ok [7, 7]) ∧ D.decode1 [16, 9] = some (.ok [9]) := by
  constructor
  · have h := C3_eof_mid_token_terminates 32 [7] (by decide) (by decide) (by decide)
    rw [h]
    decide
  · have h := C3_eof_mid_token_terminates 16 [9] (by decide) (by decide) (by decide)
    rw [h]
    decide

theorem succ_mod_cases (x d : Nat) (hd : 0 < d) :
    (x + 1) % d = if x % d = d - 1 then 0 else x % d + 1 := by
  by_cases hd1 : d = 1
  · subst hd1
    simp [Nat.mod_one]
  · have h2 : 2 ≤ d := by omega
    have hx : x % d < d := Nat.mod_lt x (by omega)
    rw [Nat.add_mod, Nat.mod_eq_of_lt (show 1 < d by omega)]
    by_cases hc : x % d = d - 1
    · rw [if_pos hc, hc]
      have : d - 1 + 1 = d := by omega
      rw [this, Nat.mod_self]
    · rw [if_neg hc]
      exact Nat.mod_eq_of_lt (by omega)

theorem seqCopy_periodic : ∀ (n : Nat) (buf : Nat → Nat) (dst d : Nat), 1 ≤ d → d ≤ dst →
    ∀ j, seqCopy buf dst (dst - d) n j =
      if dst ≤ j ∧ j < dst + n then buf (dst - d + (j - dst) % d) else buf j := by
  intro n
  induction n with
  | zero =>
    intro buf dst d hd hdd j
    rw [if_neg (by omega)]
    rfl
  | succ m ih =>
    intro buf dst d hd hdd j
    have hsrc : dst - d + 1 = dst + 1 - d := by omega
    show seqCopy (upd buf dst (buf (dst - d))) (dst + 1) (dst - d + 1) m j = _
    rw [hsrc, show dst + 1 - d = (dst + 1) - d from rfl]
    rw [ih (upd buf dst (buf (dst - d))) (dst + 1) d hd (by omega) j]
    by_cases hj1 : dst + 1 ≤ j ∧ j < dst + 1 + m
    · rw [if_pos hj1, if_pos (by omega)]
      have hy : (dst + 1) - d + (j - (dst + 1)) % d ≤ dst := by
        have := Nat.mod_lt (j - (dst + 1)) (show 0 < d by omega)
        omega
      by_cases hz : (j - (dst + 1)) % d = d - 1
      · have hyd : (dst + 1) - d + (j - (dst + 1)) % d = dst := by omega
        rw [hyd, upd_same]
        have hjd : (j - dst) % d = 0 := by
          have hj2 : j - dst = (j - (dst + 1)) + 1 := by omega
          rw [hj2, succ_mod_cases _ _ (by omega), if_pos hz]
        rw [hjd, Nat.add_zero]
      · have hyd : (dst + 1) - d + (j - (dst + 1)) % d ≠ dst := by
          have := Nat.mod_lt (j - (dst + 1)) (show 0 < d by omega)
          omega
        rw [upd_other _ _ _ _ hyd]
        have hjd : (j - dst) % d = (j - (dst + 1)) % d + 1 := by
          have hj2 : j - dst = (j - (dst + 1)) + 1 := by omega
          rw [hj2, succ_mod_cases _ _ (by omega), if_neg hz]
        rw [hjd]
        congr 1
        omega
    · rw [if_neg hj1]
      by_cases hje : j = dst
      · rw [hje, upd_same, if_pos (by omega)]
        simp
      · rw [upd_other _ _ _ _ hje, if_neg (by omega)]

theorem cpLoop_eq_seqCopy : ∀ (n : Nat) (buf : Nat → Nat) (pos ref : Nat),
    pos + n ≤ bufferSize → ref + n ≤ bufferSize →
    D.cpLoop buf pos ref n = some (seqCopy buf pos ref n) := by
  intro n
  induction n with
  | zero => intro buf pos ref _ _; rfl
  | succ m ih =>
    intro buf pos ref hp hr
    have hbuf : bufferSize = 131072 := by decide
    have hM : M32 = 4294967296 := by decide
    show D.cpLoop buf pos ref (m + 1) = _
    unfold D.cpLoop
    rw [if_neg (by omega)]
    rw [show wadd pos 1 = pos + 1 from wadd_eq_of_lt _ _ (by omega),
        show wadd ref 1 = ref + 1 from wadd_eq_of_lt _ _ (by omega)]
    exact ih (upd buf pos (buf ref)) (pos + 1) (ref + 1) (by omega) (by omega)

theorem cp_ok (d : D.Dec) (length dv : Nat)
    (hpos : d.pos + length ≤ bufferSize) (hr : d.ref + length ≤ bufferSize)
    (hdv : dv ≤ length) :
    D.cp d length dv = .ok ⟨d.r, d.w, seqCopy d.buf d.pos d.ref length, d.pos + length, d.ref + (length - dv)⟩ := by
  have hbuf : bufferSize = 131072 := by decide
  have hM : M32 = 4294967296 := by decide
  have hfl : D.flush d length = some d := flush_noop d length (by rw [wadd_eq_of_lt _ _ (by omega)]; omega)
  simp only [D.cp, hfl, cpLoop_eq_seqCopy length d.buf d.pos d.ref hpos hr]
  rw [wadd_eq_of_lt d.pos length (by omega), wsub_eq_of_le length dv hdv (by omega),
      wadd_eq_of_lt d.ref (length - dv) (by omega)]

theorem seqCopy_untouched : ∀ (n : Nat) (buf : Nat → Nat) (dstp srcp j : Nat),
    (j < dstp ∨ dstp + n ≤ j) → seqCopy buf dstp srcp n j = buf j := by
  intro n
  induction n with
  | zero => intro buf dstp srcp j _; rfl
  | succ m ih =>
    intro buf dstp srcp j hj
    show seqCopy (upd buf dstp (buf srcp)) (dstp + 1) (srcp + 1) m j = buf j
    rw [ih _ (dstp + 1) (srcp + 1) j (by omega)]
    exact upd_other _ _ _ _ (by omega)

/-- C5 (amended).  The decoder's short-offset path -- the explicit
4-byte copy cp(4, decr[off]) with decr = [0,3,2,3], followed by the copy
of the remaining match length -- produces exactly the bytes literal
byte-by-byte replication from off bytes behind would produce, for every
buffer, position and remaining length that stay within the buffer; and
the spec's example inputs "aaaaaaaaaaaa", "ababababababab" and a
period-3 sample round-trip correctly through the block Encode and
decode1.  (The claim's further universal assertion that every input
whose encoding contains a short offset round-trips is refuted separately
by the counterexample.) -/
theorem C5_short_offset_is_replication :
    (∀ (d : D.Dec) (off length : Nat),
      1 ≤ off → off ≤ 3 → off ≤ d.pos → d.ref = d.pos - off →
      d.pos + 4 + length ≤ bufferSize →
      ((D.cp d 4 (D.decrTable.getD off 0)).bind (fun d7 => D.cp d7 length 0)).map D.Dec.buf =
        .ok (literalReplication d.buf d.pos off (4 + length)) ∧
      ((D.cp d 4 (D.decrTable.getD off 0)).bind (fun d7 => D.cp d7 length 0)).map D.Dec.pos =
        .ok (d.pos + 4 + length)) ∧
    (Encode [] (List.replicate 12 97) = .ok [23, 97, 1, 0, 0] ∧
      D.decode1 [23, 97, 1, 0, 0] = some (.ok (List.replicate 12 97))) ∧
    (Encode [] [97, 98, 97, 98, 97, 98, 97, 98, 97, 98, 97, 98, 97, 98] = .ok [40, 97, 98, 2, 0, 0] ∧
      D.decode1 [40, 97, 98, 2, 0, 0] = some (.ok [97, 98, 97, 98, 97, 98, 97, 98, 97, 98, 97, 98, 97, 98])) ∧
    (Encode [] [97, 98, 99, 97, 98, 99, 97, 98, 99, 97, 98, 99, 97, 98, 99] = .ok [56, 97, 98, 99, 3, 0, 0] ∧
      D.decode1 [56, 97, 98, 99, 3, 0, 0] = some (.ok [97, 98, 99, 97, 98, 99, 97, 98, 99, 97, 98, 99, 97, 98, 99])) := by
  refine ⟨?_, ⟨by decide, by decide⟩, ⟨by decide, by decide⟩, ⟨by decide, by decide⟩⟩
  intro d off length ho1 ho3 hop href hbound
  obtain ⟨r0, w0, buf0, p0, ref0⟩ := d
  simp only at hop href hbound ⊢
  subst href
  have hbuf : bufferSize = 131072 := by decide
  interval_cases off
  · -- off = 1, decr 3, phase-2 read distance 4
    have hdv : D.decrTable.getD 1 0 = 3 := by decide
    rw [hdv]
    have hcp1 := cp_ok ⟨r0, w0, buf0, p0, p0 - 1⟩ 4 3 (by simp only; omega) (by simp only; omega) (by omega)
    simp only at hcp1
    rw [show p0 - 1 + (4 - 3) = p0 + 4 - 4 from by omega] at hcp1
    have hcp2 := cp_ok ⟨r0, w0, seqCopy buf0 p0 (p0 - 1) 4, p0 + 4, p0 + 4 - 4⟩ length 0
      (by simp only; omega) (by simp only; omega) (by omega)
    simp only [Nat.sub_zero] at hcp2
    rw [hcp1]
    simp only [Except.bind]
    rw [hcp2]
    simp only [Except.map]
    refine ⟨?_, by trivial⟩
    congr 1
    funext j
    have hA := seqCopy_periodic 4 buf0 p0 1 (by omega) (by omega)
    have hT := seqCopy_periodic (4 + length) buf0 p0 1 (by omega) (by omega)
    have hL := seqCopy_periodic length (seqCopy buf0 p0 (p0 - 1) 4) (p0 + 4) 4 (by omega) (by omega)
    rw [show p0 - 1 = p0 - 1 from rfl] at hA
    unfold literalReplication
    rw [hL j, hT j]
    by_cases hj1 : p0 + 4 ≤ j ∧ j < p0 + 4 + length
    · rw [if_pos hj1, if_pos (by omega), hA]
      have hm : (j - (p0 + 4)) % 4 < 4 := Nat.mod_lt _ (by omega)
      rw [if_pos (by omega)]
      congr 1
      omega
    · rw [if_neg hj1]
      by_cases hj2 : p0 ≤ j ∧ j < p0 + 4
      · rw [hA, if_pos hj2, if_pos (by omega)]
      · rw [hA, if_neg hj2, if_neg (by omega)]
  · -- off = 2, decr 2, phase-2 read distance 4
    have hdv : D.decrTable.getD 2 0 = 2 := by decide
    rw [hdv]
    have hcp1 := cp_ok ⟨r0, w0, buf0, p0, p0 - 2⟩ 4 2 (by simp only; omega) (by simp only; omega) (by omega)
    simp only at hcp1
    rw [show p0 - 2 + (4 - 2) = p0 + 4 - 4 from by omega] at hcp1
    have hcp2 := cp_ok ⟨r0, w0, seqCopy buf0 p0 (p0 - 2) 4, p0 + 4, p0 + 4 - 4⟩ length 0
      (by simp only; omega) (by simp only; omega) (by omega)
    simp only [Nat.sub_zero] at hcp2
    rw [hcp1]
    simp only [Except.bind]
    rw [hcp2]
    simp only [Except.map]
    refine ⟨?_, by trivial⟩
    congr 1
    funext j
    have hA := seqCopy_periodic 4 buf0 p0 2 (by omega) (by omega)
    have hT := seqCopy_periodic (4 + length) buf0 p0 2 (by omega) (by omega)
    have hL := seqCopy_periodic length (seqCopy buf0 p0 (p0 - 2) 4) (p0 + 4) 4 (by omega) (by omega)
    unfold literalReplication
    rw [hL j, hT j]
    by_cases hj1 : p0 + 4 ≤ j ∧ j < p0 + 4 + length
    · rw [if_pos hj1, if_pos (by omega), hA]
      have hm : (j - (p0 + 4)) % 4 < 4 := Nat.mod_lt _ (by omega)
      rw [if_pos (by omega)]
      congr 1
      omega
    · rw [if_neg hj1]
      by_cases hj2 : p0 ≤ j ∧ j < p0 + 4
      · rw [hA, if_pos hj2, if_pos (by omega)]
      · rw [hA, if_neg hj2, if_neg (by omega)]
  · -- off = 3, decr 3, phase-2 read distance 6
    have hdv : D.decrTable.getD 3 0 = 3 := by decide
    rw [hdv]
    have hcp1 := cp_ok ⟨r0, w0, buf0, p0, p0 - 3⟩ 4 3 (by simp only; omega) (by simp only; omega) (by omega)
    simp only at hcp1
    rw [show p0 - 3 + (4 - 3) = p0 + 4 - 6 from by omega] at hcp1
    have hcp2 := cp_ok ⟨r0, w0, seqCopy buf0 p0 (p0 - 3) 4, p0 + 4, p0 + 4 - 6⟩ length 0
      (by simp only; omega) (by simp only; omega) (by omega)
    simp only [Nat.sub_zero] at hcp2
    rw [hcp1]
    simp only [Except.bind]
    rw [hcp2]
    simp only [Except.map]
    refine ⟨?_, by trivial⟩
    congr 1
    funext j
    have hA := seqCopy_periodic 4 buf0 p0 3 (by omega) (by omega)
    have hT := seqCopy_periodic (4 + length) buf0 p0 3 (by omega) (by omega)
    have hL := seqCopy_periodic length (seqCopy buf0 p0 (p0 - 3) 4) (p0 + 4) 6 (by omega) (by omega)
    unfold literalReplication
    rw [hL j, hT j]
    by_cases hj1 : p0 + 4 ≤ j ∧ j < p0 + 4 + length
    · rw [if_pos hj1, if_pos (by omega), hA]
      have hm : (j - (p0 + 4)) % 6 < 6 := Nat.mod_lt _ (by omega)
      by_cases hz : p0 ≤ p0 + 4 - 6 + (j - (p0 + 4)) % 6 ∧ p0 + 4 - 6 + (j - (p0 + 4)) % 6 < p0 + 4
      · rw [if_pos hz]
        congr 1
        omega
      · rw [if_neg hz]
        have husp := seqCopy_untouched 4 buf0 p0 (p0 - 3) (p0 + 4 - 6 + (j - (p0 + 4)) % 6) (by omega)
        congr 1
        omega
    · rw [if_neg hj1]
      by_cases hj2 : p0 ≤ j ∧ j < p0 + 4
      · rw [hA, if_pos hj2, if_pos (by omega)]
      · rw [hA, if_neg hj2, if_neg (by omega)]

/-- Witness for C5 (amended): the short-offset path at offset 1 on a
concrete buffer, position 5, remaining length 2. -/
theorem C5_short_offset_is_replication_witness :
    ((D.cp ⟨[], [], fun i => i, 5, 4⟩ 4 (D.decrTable.getD 1 0)).bind (fun d7 => D.cp d7 2 0)).map D.Dec.buf =
      .ok (literalReplication (fun i => i) 5 1 (4 + 2)) ∧
    ((D.cp ⟨[], [], fun i => i, 5, 4⟩ 4 (D.decrTable.getD 1 0)).bind (fun d7 => D.cp d7 2 0)).map D.Dec.pos =
      .ok (5 + 4 + 2) := by
  have h := C5_short_offset_is_replication.1 ⟨[], [], fun i => i, 5, 4⟩ 1 2
    (by decide) (by decide) (by decide) rfl (by decide)
  exact ⟨h.1, h.2⟩

theorem ext255_spec : ∀ (fuel ln : Nat) (dst : Nat → Nat) (dpos : Nat), ln / 255 < fuel →
    (Block.ext255 fuel dst dpos ln).2 = dpos + ln / 255 + 1 ∧
    extract (Block.ext255 fuel dst dpos ln).1 ((Block.ext255 fuel dst dpos ln).2) =
      extract dst dpos ++ List.replicate (ln / 255) 255 ++ [ln % 255] ∧
    ∀ j, (Block.ext255 fuel dst dpos ln).2 ≤ j → (Block.ext255 fuel dst dpos ln).1 j = dst j := by
  intro fuel
  induction fuel with
  | zero => intro ln dst dpos h; omega
  | succ f ih =>
    intro ln dst dpos h
    by_cases h254 : 254 < ln
    · have hrec := ih (ln - 255) (upd dst dpos 255) (dpos + 1) (by omega)
      simp only [Block.ext255, if_pos h254]
      refine ⟨by rw [hrec.1]; omega, ?_, ?_⟩
      · rw [hrec.2.1, extract_upd_snoc]
        have h1 : ln / 255 = (ln - 255) / 255 + 1 := by omega
        have h2 : ln % 255 = (ln - 255) % 255 := by omega
        rw [h1, h2, List.replicate_succ]
        simp [List.append_assoc]
      · intro j hj
        have hd : dpos + 1 ≤ j := by
          have := hrec.1; omega
        rw [hrec.2.2 j hj, upd_other _ _ _ _ (by omega)]
    · simp only [Block.ext255, if_neg h254]
      have hln : ln / 255 = 0 := by omega
      have hmod : ln % 256 = ln % 255 := by omega
      refine ⟨by omega, ?_, ?_⟩
      · rw [extract_upd_snoc, hln, hmod]
        simp
      · intro j hj
        exact upd_other _ _ _ _ (by omega)

theorem mlExt255_spec : ∀ (fuel ln : Nat) (dst : Nat → Nat) (dpos : Nat), ln / 255 < fuel →
    (Block.mlExt255 fuel dst dpos ln).2 = dpos + ln / 255 + 1 ∧
    extract (Block.mlExt255 fuel dst dpos ln).1 ((Block.mlExt255 fuel dst dpos ln).2) =
      extract dst dpos ++ List.replicate (ln / 255) 255 ++ [ln % 255] ∧
    ∀ j, (Block.mlExt255 fuel dst dpos ln).2 ≤ j → (Block.mlExt255 fuel dst dpos ln).1 j = dst j := by
  intro fuel
  induction fuel with
  | zero => intro ln dst dpos h; omega
  | succ f ih =>
    intro ln dst dpos h
    by_cases h254 : 254 < ln
    · have hrec := ih (ln - 255) (upd dst dpos 255) (dpos + 1) (by omega)
      simp only [Block.mlExt255, if_pos h254]
      refine ⟨by rw [hrec.1]; omega, ?_, ?_⟩
      · rw [hrec.2.1, extract_upd_snoc]
        have h1 : ln / 255 = (ln - 255) / 255 + 1 := by omega
        have h2 : ln % 255 = (ln - 255) % 255 := by omega
        rw [h1, h2, List.replicate_succ]
        simp [List.append_assoc]
      · intro j hj
        have hd : dpos + 1 ≤ j := by
          have := hrec.1; omega
        rw [hrec.2.2 j hj, upd_other _ _ _ _ (by omega)]
    · simp only [Block.mlExt255, if_neg h254]
      have hln : ln / 255 = 0 := by omega
      have hmod : ln % 256 = ln % 255 := by omega
      refine ⟨by omega, ?_, ?_⟩
      · rw [extract_upd_snoc, hln, hmod]
        simp
      · intro j hj
        exact upd_other _ _ _ _ (by omega)

theorem copyLits_spec : ∀ (bs : List Nat) (dst : Nat → Nat) (dpos : Nat),
    extract (Block.copyLits dst dpos bs) (dpos + bs.length) = extract dst dpos ++ bs ∧
    ∀ j, dpos + bs.length ≤ j → Block.copyLits dst dpos bs j = dst j := by
  intro bs
  induction bs with
  | nil => intro dst dpos; simp [Block.copyLits]
  | cons b t ih =>
    intro dst dpos
    constructor
    · have harr : dpos + (b :: t).length = (dpos + 1) + t.length := by simp; omega
      simp only [Block.copyLits]
      rw [harr, (ih (upd dst dpos b) (dpos + 1)).1, extract_upd_snoc]
      simp
    · intro j hj
      simp only [List.length_cons] at hj
      simp only [Block.copyLits]
      rw [(ih _ _).2 j (by omega), upd_other _ _ _ _ (by omega)]

theorem extend_spec (src : List Nat) : ∀ (fuel pos ref : Nat),
    pos ≤ src.length → src.length - pos < fuel →
    pos ≤ (Block.extend fuel src pos ref).1 ∧ (Block.extend fuel src pos ref).1 ≤ src.length := by
  intro fuel
  induction fuel with
  | zero => intro pos ref h1 h2; omega
  | succ f ih =>
    intro pos ref h1 h2
    simp only [Block.extend]
    by_cases hc : pos < src.length ∧ src.getD pos 0 = src.getD ref 0
    · rw [if_pos hc]
      have := ih (pos + 1) (wadd ref 1) (by omega) (by omega)
      exact ⟨by omega, this.2⟩
    · rw [if_neg hc]
      exact ⟨Nat.le_refl _, h1⟩

theorem copyLits_extract (bs : List Nat) (dst : Nat → Nat) (dpos n : Nat) (h : bs.length = n) :
    extract (Block.copyLits dst dpos bs) (dpos + n) = extract dst dpos ++ bs := by
  subst h
  exact (copyLits_spec bs dst dpos).1

theorem writeLiterals_spec (dst : Nat → Nat) (dpos : Nat) (src : List Nat)
    (length mlLen pos : Nat) (h : pos + length ≤ src.length) :
    (Block.writeLiterals dst dpos src length mlLen pos).2 =
      dpos + 1 + (if runMask - 1 < length then (length - runMask) / 255 + 1 else 0) + length ∧
    extract (Block.writeLiterals dst dpos src length mlLen pos).1
        ((Block.writeLiterals dst dpos src length mlLen pos).2) =
      extract dst dpos ++ Block.token length mlLen ::
        ((if runMask - 1 < length then
            List.replicate ((length - runMask) / 255) 255 ++ [(length - runMask) % 255] else []) ++
          (src.drop pos).take length) ∧
    ∀ j, (Block.writeLiterals dst dpos src length mlLen pos).2 ≤ j →
      (Block.writeLiterals dst dpos src length mlLen pos).1 j = dst j := by
  have hrm : runMask = 15 := by decide
  have hbl : ((src.drop pos).take length).length = length := by
    simp [List.length_take, List.length_drop]
    omega
  refine ⟨?_, ?_, ?_⟩
  · by_cases hcode : runMask - 1 < length
    · have hfuel : (length - runMask) / 255 < length - runMask + 1 := by
        have := Nat.div_le_self (length - runMask) 255
        omega
      simp only [Block.writeLiterals, if_pos hcode, eq_self_iff_true, if_true]
      rw [(ext255_spec _ _ _ _ hfuel).1]
      omega
    · have hne : ¬ (length % 256 = runMask) := by omega
      simp only [Block.writeLiterals, if_neg hcode, if_neg hne]
  · by_cases hcode : runMask - 1 < length
    · have htok : (if mlMask - 1 < mlLen then runMask <<< mlBits + mlMask
          else runMask <<< mlBits + mlLen % 256) = Block.token length mlLen := by
        unfold Block.token
        rw [if_pos hcode]
        by_cases hml : mlMask - 1 < mlLen <;> simp [hml]
      have hfuel : (length - runMask) / 255 < length - runMask + 1 := by
        have := Nat.div_le_self (length - runMask) 255
        omega
      have hx := ext255_spec (length - runMask + 1) (length - runMask)
        (upd dst dpos (Block.token length mlLen)) (dpos + 1) hfuel
      simp only [Block.writeLiterals, if_pos hcode, eq_self_iff_true, if_true]
      rw [htok]
      have hlen2 : (Block.ext255 (length - runMask + 1)
          (upd dst dpos (Block.token length mlLen)) (dpos + 1) (length - runMask)).2 + length =
          (Block.ext255 (length - runMask + 1) (upd dst dpos (Block.token length mlLen)) (dpos + 1)
            (length - runMask)).2 + ((src.drop pos).take length).length := by
        rw [hbl]
      rw [hlen2, copyLits_extract _ _ _ _ rfl, hx.2.1, extract_upd_snoc]
      simp [List.append_assoc]
    · have htok : (if mlMask - 1 < mlLen then (length % 256) <<< mlBits + mlMask
          else (length % 256) <<< mlBits + mlLen % 256) = Block.token length mlLen := by
        unfold Block.token
        rw [if_neg hcode]
        by_cases hml : mlMask - 1 < mlLen <;> simp [hml]
      have hne : ¬ (length % 256 = runMask) := by omega
      simp only [Block.writeLiterals, if_neg hcode, if_neg hne]
      rw [htok]
      have hlen2 : dpos + 1 + length = dpos + 1 + ((src.drop pos).take length).length := by
        rw [hbl]
      rw [hlen2, copyLits_extract _ _ _ _ rfl, extract_upd_snoc]
      simp
  · intro j hj
    by_cases hcode : runMask - 1 < length
    · have hfuel : (length - runMask) / 255 < length - runMask + 1 := by
        have := Nat.div_le_self (length - runMask) 255
        omega
      have hx := ext255_spec (length - runMask + 1) (length - runMask)
        (upd dst dpos (if mlMask - 1 < mlLen then runMask <<< mlBits + mlMask
          else runMask <<< mlBits + mlLen % 256)) (dpos + 1) hfuel
      simp only [Block.writeLiterals, if_pos hcode, eq_self_iff_true, if_true] at hj ⊢
      rw [(copyLits_spec _ _ _).2 j (by rw [hbl]; omega),
        hx.2.2 j (by rw [hx.1] at hj ⊢; omega), upd_other _ _ _ _ (by
          rw [hx.1] at hj; omega)]
    · have hne : ¬ (length % 256 = runMask) := by omega
      simp only [Block.writeLiterals, if_neg hcode, if_neg hne] at hj ⊢
      rw [(copyLits_spec _ _ _).2 j (by rw [hbl]; omega), upd_other _ _ _ _ (by omega)]

theorem encodeStep_cont (e : Block.Enc) (step limit : Nat)
    (hsl : e.src.length < MaxInputSize)
    (hnt : ¬ (e.src.length ≤ e.pos + 4))
    (hinv : Block.Inv e step limit) :
    ∃ e2 s2 l2, Block.encodeStep e step limit = .cont e2 s2 l2 ∧
      e2.src = e.src ∧ Block.Inv e2 s2 l2 ∧ Block.meas e2 s2 < Block.meas e step ∧
      e.dpos ≤ e2.dpos ∧ ∀ j, e2.dpos ≤ j → e2.dst j = e.dst j := by
  obtain ⟨hS, hJ, hK, hL, hQ, hR, hD⟩ := hinv
  have hMax : MaxInputSize = 2113929216 := by decide
  have hM : M32 = 4294967296 := by decide
  have h4 : e.pos + 4 < e.src.length := by omega
  have hanch : e.anchor ≤ e.pos := by omega
  have hstepM : step < 1073741824 := by omega
  have hwsa : wsub e.pos e.anchor = e.pos - e.anchor := wsub_eq_of_le _ _ hanch (by omega)
  simp only [Block.encodeStep, if_neg hnt]
  by_cases hrej : wsub e.pos (wadd (e.hashTable (wmul (Block.readUint32 e.src e.pos) 2654435761 >>> hashShift)) uninitHash) >>> 16 ≠ 0 ∨
      Block.readUint32 e.src (wadd (e.hashTable (wmul (Block.readUint32 e.src e.pos) 2654435761 >>> hashShift)) uninitHash) ≠ Block.readUint32 e.src e.pos
  · rw [if_pos hrej]
    have hshift : step >>> 2 = step / 4 := by
      rw [Nat.shiftRight_eq_div_pow]
    by_cases hgrow : limit < wsub e.pos e.anchor
    · rw [if_pos hgrow]
      have hgrow' : limit < e.pos - e.anchor := by rwa [hwsa] at hgrow
      have hlim31 : limit < 2147483648 := by omega
      have hs2 : wadd step (1 + step >>> 2) = step + 1 + step / 4 := by
        rw [hshift, wadd_eq_of_lt _ _ (by omega)]
        omega
      have hl2 : (limit <<< 1) % M32 = 2 * limit := by
        rw [Nat.shiftLeft_eq, pow_one, Nat.mod_eq_of_lt (by omega)]
        omega
      have hpos2 : wadd e.pos (step + 1 + step / 4) = e.pos + (step + 1 + step / 4) :=
        wadd_eq_of_lt _ _ (by omega)
      refine ⟨_, _, _, rfl, rfl, ?_, ?_, Nat.le_refl _, fun j _ => rfl⟩
      · unfold Block.Inv
        simp only
        rw [hs2, hl2, hpos2]
        exact ⟨by omega, by omega, hK, by omega, by omega, by omega, hD⟩
      · unfold Block.meas
        simp only
        rw [hs2, hpos2, if_pos (show 1 < step + 1 + step / 4 by omega)]
        rcases Nat.lt_or_ge 1 step with h1 | h1
        · rw [if_pos h1]
          omega
        · rw [if_neg (by omega)]
          omega
    · rw [if_neg hgrow]
      have hpos2 : wadd e.pos step = e.pos + step := wadd_eq_of_lt _ _ (by omega)
      refine ⟨_, _, _, rfl, rfl, ?_, ?_, Nat.le_refl _, fun j _ => rfl⟩
      · unfold Block.Inv
        simp only
        rw [hpos2]
        exact ⟨hS, by omega, hK, hL, hQ, hR, hD⟩
      · unfold Block.meas
        simp only
        rw [hpos2]
        omega
  · rw [if_neg hrej]
    by_cases hst : 1 < step
    · rw [if_pos hst]
      have hpos2 : wsub e.pos (step - 1) = e.pos - (step - 1) :=
        wsub_eq_of_le _ _ (by omega) (by omega)
      refine ⟨_, _, _, rfl, rfl, ?_, ?_, Nat.le_refl _, fun j _ => rfl⟩
      · unfold Block.Inv
        simp only
        rw [hpos2]
        exact ⟨Nat.le_refl _, by omega, hK, by omega, hQ, hR, hD⟩
      · unfold Block.meas
        simp only
        rw [hpos2, if_pos hst, if_neg (by omega)]
        omega
    · rw [if_neg hst]
      have hstep1 : step = 1 := by omega
      have hinc : incompressible = 128 := by decide
      have hpos1 : wadd e.pos minMatch = e.pos + 4 := by
        rw [show minMatch = 4 from rfl, wadd_eq_of_lt _ _ (by omega)]
      rw [hpos1, hwsa]
      generalize hPR : Block.extend (e.src.length + 1) e.src (e.pos + 4)
        (wadd (wadd (e.hashTable (wmul (Block.readUint32 e.src e.pos) 2654435761 >>> hashShift))
          uninitHash) minMatch) = PR
      have hext := extend_spec e.src (e.src.length + 1) (e.pos + 4)
        (wadd (wadd (e.hashTable (wmul (Block.readUint32 e.src e.pos) 2654435761 >>> hashShift))
          uninitHash) minMatch) (by omega) (by omega)
      rw [hPR] at hext
      have hml' : wsub PR.1 (e.pos + 4) = PR.1 - (e.pos + 4) :=
        wsub_eq_of_le _ _ hext.1 (by omega)
      rw [hml']
      have hwl := writeLiterals_spec e.dst e.dpos e.src (e.pos - e.anchor)
        (PR.1 - (e.pos + 4)) e.anchor (by omega)
      generalize hp1 : Block.writeLiterals e.dst e.dpos e.src (e.pos - e.anchor)
        (PR.1 - (e.pos + 4)) e.anchor = p1
      rw [hp1] at hwl
      by_cases hml : mlMask - 1 < PR.1 - (e.pos + 4)
      · rw [if_pos hml]
        have hwsml : wsub (PR.1 - (e.pos + 4)) mlMask = PR.1 - (e.pos + 4) - 15 := by
          rw [show mlMask = 15 from rfl]
          exact wsub_eq_of_le _ _ (by
            have : mlMask = 15 := rfl
            omega) (by omega)
        rw [hwsml]
        have hfuel : (PR.1 - (e.pos + 4) - 15) / 255 < PR.1 - (e.pos + 4) - 15 + 1 := by
          have := Nat.div_le_self (PR.1 - (e.pos + 4) - 15) 255
          omega
        have hmx := mlExt255_spec (PR.1 - (e.pos + 4) - 15 + 1) (PR.1 - (e.pos + 4) - 15)
          (upd (upd p1.1 p1.2 (wsub e.pos (wadd (e.hashTable (wmul (Block.readUint32 e.src e.pos)
            2654435761 >>> hashShift)) uninitHash) % 256)) (p1.2 + 1)
            (wsub e.pos (wadd (e.hashTable (wmul (Block.readUint32 e.src e.pos)
            2654435761 >>> hashShift)) uninitHash) >>> 8 % 256)) (p1.2 + 2) hfuel
      -- dpos value facts
        have hEXT : (if runMask - 1 < e.pos - e.anchor
            then (e.pos - e.anchor - runMask) / 255 + 1 else 0) ≤ (e.pos - e.anchor) / 255 + 1 := by
          have hrm : runMask = 15 := by decide
          by_cases hc : runMask - 1 < e.pos - e.anchor
          · rw [if_pos hc]
            omega
          · rw [if_neg hc]
            omega
        refine ⟨_, _, _, rfl, rfl, ?_, ?_, ?_, ?_⟩
        · unfold Block.Inv
          simp only
          rw [hmx.1]
          refine ⟨hS, by omega, hext.2, ?_, ?_, ?_, ?_⟩
          · omega
          · omega
          · omega
          · rw [hwl.1]
            omega
        · unfold Block.meas
          simp only
          omega
        · simp only
          rw [hmx.1, hwl.1]
          omega
        · simp only
          intro j hj
          rw [hmx.1] at hj
          rw [hmx.2.2 j (by rw [hmx.1]; omega)]
          rw [upd_other _ _ _ _ (by rw [hwl.1] at hj; omega)]
          rw [upd_other _ _ _ _ (by rw [hwl.1] at hj; omega)]
          exact hwl.2.2 j (by omega)
      · rw [if_neg hml]
        refine ⟨_, _, _, rfl, rfl, ?_, ?_, ?_, ?_⟩
        · unfold Block.Inv
          simp only
          refine ⟨hS, by omega, hext.2, by omega, by omega, by omega, ?_⟩
          rw [hwl.1]
          have hrm : runMask = 15 := by decide
          by_cases hc : runMask - 1 < e.pos - e.anchor
          · rw [if_pos hc]
            omega
          · rw [if_neg hc]
            omega
        · unfold Block.meas
          simp only
          omega
        · simp only
          rw [hwl.1]
          omega
        · simp only
          intro j hj
          rw [hwl.1] at hj
          rw [upd_other _ _ _ _ (by omega)]
          rw [upd_other _ _ _ _ (by omega)]
          exact hwl.2.2 j (by rw [hwl.1]; omega)

theorem encodeLoop_bound : ∀ (fuel : Nat) (e : Block.Enc) (step limit : Nat),
    e.src.length < MaxInputSize → Block.Inv e step limit → Block.meas e step < fuel →
    ∃ p, Block.encodeLoop fuel e step limit = some p ∧
      p.2 ≤ e.src.length + e.src.length / 255 + 2 ∧
      e.dpos ≤ p.2 ∧ ∀ j, p.2 ≤ j → p.1 j = e.dst j := by
  intro fuel
  induction fuel with
  | zero => intro e step limit _ _ hm; omega
  | succ f ih =>
    intro e step limit hsl hinv hm
    by_cases hterm : e.src.length ≤ e.pos + 4
    · obtain ⟨hS, hJ, hK, hL, hQ, hR, hD⟩ := hinv
      have hMax : MaxInputSize = 2113929216 := by decide
      have hM : M32 = 4294967296 := by decide
      have hws : wsub e.src.length e.anchor = e.src.length - e.anchor :=
        wsub_eq_of_le _ _ hK (by omega)
      have hwl := writeLiterals_spec e.dst e.dpos e.src (e.src.length - e.anchor) 0 e.anchor
        (by omega)
      simp only [Block.encodeLoop, Block.encodeStep, if_pos hterm, hws]
      refine ⟨_, rfl, ?_, ?_, ?_⟩
      · simp only
        rw [hwl.1]
        have hrm : runMask = 15 := by decide
        by_cases hc : runMask - 1 < e.src.length - e.anchor
        · rw [if_pos hc]
          omega
        · rw [if_neg hc]
          omega
      · simp only
        rw [hwl.1]
        omega
      · simp only
        intro j hj
        exact hwl.2.2 j hj
    · obtain ⟨e2, s2, l2, heq, hsrc, hinv2, hmeas, hdp, hframe⟩ :=
        encodeStep_cont e step limit hsl hterm hinv
      simp only [Block.encodeLoop, heq]
      obtain ⟨p, hp, hb, hdp2, hfr2⟩ := ih e2 s2 l2 (by rwa [hsrc]) hinv2 (by omega)
      refine ⟨p, hp, by rwa [hsrc] at hb, by omega, ?_⟩
      intro j hj
      rw [hfr2 j hj, hframe j (by omega)]

theorem extract_length (f : Nat → Nat) (n : Nat) : (extract f n).length = n := by
  simp [extract]

theorem EncodeRun_ok (dstL src : List Nat) (h : src.length < MaxInputSize) :
    ∃ p, EncodeRun dstL src = some p ∧ p.2 ≤ src.length + src.length / 255 + 2 ∧
      ∀ j, p.2 ≤ j → p.1 j = dstL.getD j 0 := by
  obtain ⟨p, hp, hb, _, hfr⟩ := encodeLoop_bound (2 * src.length + 4)
    ⟨src, fun i => dstL.getD i 0, 0, fun _ => 0, 0, 0⟩ 1 incompressible h
    ⟨Nat.le_refl _, Nat.le_refl _, Nat.zero_le _, by decide, by decide, by decide, Nat.zero_le _⟩
    (by simp [Block.meas]; omega)
  exact ⟨p, hp, hb, hfr⟩

/-- C6.  For every input below MaxInputSize the block Encode succeeds and
the compressed output is no longer than CompressBound of the input
length: the literal-emission and match-emission costs are covered by the
invariant dpos <= anchor + anchor/255, and the final literal-only token
adds at most the remaining bytes plus their base-255 length continuation
plus two bytes, staying under len + len/255 + 16. -/
theorem C6_compress_bound (dst src : List Nat) (h : src.length < MaxInputSize) :
    ∃ out, Encode dst src = .ok out ∧ out.length ≤ CompressBound src.length := by
  have hni : ¬ (MaxInputSize ≤ src.length) := by omega
  obtain ⟨p, hp, hb, hfr⟩ := EncodeRun_ok
    (if dst.length < CompressBound src.length then List.replicate (CompressBound src.length) 0
      else dst) src h
  have hCB : CompressBound src.length = src.length + src.length / 255 + 16 := by
    unfold CompressBound
    rw [if_neg (by omega)]
  refine ⟨extract p.1 p.2, ?_, ?_⟩
  · simp only [Encode, if_neg hni, hp]
  · rw [extract_length, hCB]
    omega

/-- Witness for C6 at a concrete input. -/
theorem C6_compress_bound_witness :
    ∃ out, Encode [] [1, 2, 3] = .ok out ∧ out.length ≤ CompressBound [1, 2, 3].length :=
  C6_compress_bound [] [1, 2, 3] (by decide)

/-- C10.  The block encoder never modifies the source: every continuation
state of the loop carries src unchanged (and Encode only reads it).  When
the caller's dst is at least CompressBound(len(src)) bytes, the loop runs
on dst itself and the returned slice is its prefix of length dpos, the
rest of the buffer still holding the caller's bytes; when dst is smaller
it is left untouched and Encode behaves exactly as if handed a fresh
zero buffer of length CompressBound(len(src)). -/
theorem C10_frame_effect (dst src : List Nat) (h : src.length < MaxInputSize) :
    (∀ (e : Block.Enc) (step limit : Nat) (e2 : Block.Enc) (s2 l2 : Nat),
      (Block.encodeStep e step limit).contState = some (e2, s2, l2) → e2.src = e.src) ∧
    (CompressBound src.length ≤ dst.length →
      ∃ p, EncodeRun dst src = some p ∧ p.2 ≤ dst.length ∧
        Encode dst src = .ok (extract p.1 p.2) ∧
        ∀ j, p.2 ≤ j → p.1 j = dst.getD j 0) ∧
    (dst.length < CompressBound src.length →
      Encode dst src = Encode (List.replicate (CompressBound src.length) 0) src) := by
  have hni : ¬ (MaxInputSize ≤ src.length) := by omega
  have hCB : CompressBound src.length = src.length + src.length / 255 + 16 := by
    unfold CompressBound
    rw [if_neg (by omega)]
  refine ⟨?_, ?_, ?_⟩
  · intro e step limit e2 s2 l2 hc
    by_cases hterm : e.src.length ≤ e.pos + 4
    · simp [Block.encodeStep, if_pos hterm, Block.StepRes.contState] at hc
    · simp only [Block.encodeStep, if_neg hterm] at hc
      by_cases hrej : wsub e.pos (wadd (e.hashTable (wmul (Block.readUint32 e.src e.pos)
            2654435761 >>> hashShift)) uninitHash) >>> 16 ≠ 0 ∨
          Block.readUint32 e.src (wadd (e.hashTable (wmul (Block.readUint32 e.src e.pos)
            2654435761 >>> hashShift)) uninitHash) ≠ Block.readUint32 e.src e.pos
      · rw [if_pos hrej] at hc
        simp only [Block.StepRes.contState, Option.some.injEq, Prod.mk.injEq] at hc
        rw [← hc.1]
      · rw [if_neg hrej] at hc
        by_cases hst : 1 < step
        · rw [if_pos hst] at hc
          simp only [Block.StepRes.contState, Option.some.injEq, Prod.mk.injEq] at hc
          rw [← hc.1]
        · rw [if_neg hst] at hc
          simp only [Block.StepRes.contState, Option.some.injEq, Prod.mk.injEq] at hc
          rw [← hc.1]
  · intro hge
    obtain ⟨p, hp, hb, hfr⟩ := EncodeRun_ok dst src h
    refine ⟨p, hp, by omega, ?_, hfr⟩
    simp only [Encode, if_neg hni, if_neg (show ¬ (dst.length < CompressBound src.length) by
      omega), hp]
  · intro hlt
    simp only [Encode, if_neg hni, if_pos hlt, List.length_replicate, lt_self_iff_false,
      if_false]

/-- Witness for C10 at a concrete large-enough dst and a small source. -/
theorem C10_frame_effect_witness :
    (∀ (e : Block.Enc) (step limit : Nat) (e2 : Block.Enc) (s2 l2 : Nat),
      (Block.encodeStep e step limit).contState = some (e2, s2, l2) → e2.src = e.src) ∧
    (CompressBound [1, 2, 3].length ≤ (List.replicate 19 7).length →
      ∃ p, EncodeRun (List.replicate 19 7) [1, 2, 3] = some p ∧
        p.2 ≤ (List.replicate 19 7).length ∧
        Encode (List.replicate 19 7) [1, 2, 3] = .ok (extract p.1 p.2) ∧
        ∀ j, p.2 ≤ j → p.1 j = (List.replicate 19 7).getD j 0) ∧
    ((List.replicate 19 7).length < CompressBound [1, 2, 3].length →
      Encode (List.replicate 19 7) [1, 2, 3] =
        Encode (List.replicate (CompressBound [1, 2, 3].length) 0) [1, 2, 3]) :=
  C10_frame_effect (List.replicate 19 7) [1, 2, 3] (by decide)
